import Mathlib

/-!
Verification of the Context Processor service (`ContextProcessor` in
`src/context-processor.ts`) and the tool handlers `rlm_get_chunks` and
`rlm_search_context` (`src/tools/rlm-tools.ts`) of the RLM-MCP repository.

Modelling conventions:
* JavaScript strings are `List Char`; character offsets are exact positions
  into the list.  JavaScript numbers reaching the decomposition API are
  modelled as `Int` (the zod schemas force integers; `rlm_get_chunks`
  accepts any integer `chunk_size` / `overlap`, so negatives are reachable).
* JavaScript builtins used by the source (`String.slice`, `Array.slice`,
  `String.split`, `String.indexOf`, `trim`, `join`) are given executable
  models (`jsSlice`, `splitOnChar`, `jsIndexOf`, `jsTrim`, `joinSep`)
  following the ECMAScript semantics.
* A compiled regular expression used for splitting is modelled by a
  `ChunkMatcher`: at a position it either fails or returns the length of the
  (leftmost, greedy) match anchored there; `String.split(regex)` is the
  ECMAScript SplitMatch loop over such a matcher.  Capture groups inside a
  split pattern (which make JavaScript interleave captured text into the
  result) are outside the model.  The three regexes that are fixed in the
  source (`\n\n+`, the markdown-header pattern and the sentence pattern)
  are translated directly into executable scanners.
* A compiled search regex (`ContextProcessor.search`) is modelled by a
  `RegexExec` function (`exec` from a position); an invalid pattern is a
  compile result of `none`, mirroring `new RegExp` throwing.
* While-loops run on an explicit fuel parameter that provably dominates the
  number of iterations of the source loop.
-/

namespace RLM

/-- Decomposition strategies of `DecompositionStrategy` (`types.ts`).  The
enum is closed, so the `default` arm of `decompose`'s switch is
unreachable and has no counterpart here. -/
inductive DecompositionStrategy where
  | fixedSize
  | byLines
  | byParagraphs
  | bySections
  | byRegex
  | bySentences
deriving DecidableEq

/-- Chunk metadata: `decomposeByLines` stores start/end line numbers,
`decomposeBySections` stores a preamble tag or a header level and title. -/
inductive ChunkMeta where
  | lines (startLine : Nat) (endLine : Int)
  | preamble
  | sect (level : Nat) (title : List Char)
deriving DecidableEq

/-- The `Chunk` record of `types.ts`: index, content and character offsets
into the source text.  Offsets are `Int` because the source computes them
with JavaScript number arithmetic. -/
structure Chunk where
  index : Nat
  content : List Char
  startOffset : Int
  endOffset : Int
  metadata : Option ChunkMeta := none
deriving DecidableEq

instance : Inhabited Chunk := ⟨⟨0, [], 0, 0, none⟩⟩

/-! ### JavaScript builtins -/

/-- ECMAScript `String.prototype.slice` / `Array.prototype.slice`:
negative ends count from the end, everything is clamped to the bounds. -/
def jsSlice {α : Type} (l : List α) (a b : Int) : List α :=
  let n : Int := l.length
  let s0 : Int := if a < 0 then max (n + a) 0 else min a n
  let e0 : Int := if b < 0 then max (n + b) 0 else min b n
  if s0 < e0 then (l.drop s0.toNat).take (e0 - s0).toNat else []

/-- ECMAScript `String.prototype.split` with a one-character separator
(`content.split('\n')`): always returns at least one part, keeps empty
parts (`"".split('\n')` is `[""]`). -/
def splitOnChar (c : Char) : List Char → List (List Char)
  | [] => [[]]
  | x :: xs =>
    match splitOnChar c xs with
    | [] => [[x]]
    | h :: t => if x = c then [] :: h :: t else (x :: h) :: t

/-- ECMAScript `Array.prototype.join('\n')`. -/
def joinSep (c : Char) : List (List Char) → List Char
  | [] => []
  | [x] => x
  | x :: y :: t => x ++ c :: joinSep c (y :: t)

/-- Whether `sub` occurs in `content` starting exactly at position `i`. -/
def occursAt (content sub : List Char) (i : Nat) : Bool :=
  sub.isPrefixOf (content.drop i)

/-- Scan positions `i, i+1, …` (`fuel` many) for the first occurrence. -/
def findOccur (content sub : List Char) : Nat → Nat → Option Nat
  | _, 0 => none
  | i, fuel + 1 =>
    if occursAt content sub i then some i else findOccur content sub (i + 1) fuel

/-- ECMAScript `String.prototype.indexOf(sub, start)`; `none` models the
return value `-1`.  The start position is clamped to `[0, length]` and the
scan covers every remaining position, so the fuel is exact. -/
def jsIndexOf (content sub : List Char) (start : Nat) : Option Nat :=
  let s := min start content.length
  findOccur content sub s (content.length + 1 - s)

/-- `indexOf` with a JavaScript-number start position: a negative start is
clamped to `0` (`Int.toNat`). -/
def jsIndexOfClamped (content sub : List Char) (start : Int) : Option Nat :=
  jsIndexOf content sub start.toNat

/-- The ASCII whitespace class of JavaScript `\s` / `String.prototype.trim`
(space, tab, line feed, carriage return, vertical tab, form feed). -/
def isJsWs (c : Char) : Bool :=
  c = ' ' || c = '\t' || c = '\n' || c = '\r' || c = '\x0b' || c = '\x0c'

/-- ECMAScript `String.prototype.trim`. -/
def jsTrim (l : List Char) : List Char :=
  ((l.dropWhile isJsWs).reverse.dropWhile isJsWs).reverse

/-- Length of the maximal prefix of `l` satisfying `p`. -/
def countLeading (p : Char → Bool) (l : List Char) : Nat :=
  (l.takeWhile p).length

/-! ### Regex split model -/

/-- Model of a compiled split regex: at a position of the text it either
fails or returns the length of the match anchored there. -/
def ChunkMatcher : Type := List Char → Nat → Option Nat

/-- Matcher for the paragraph separator `\n\n+` (greedy run of at least two
line feeds). -/
def nlnlMatcher : ChunkMatcher := fun content pos =>
  let run := countLeading (· = '\n') (content.drop pos)
  if 2 ≤ run then some run else none

/-- The ECMAScript `String.prototype.split(regex)` loop, producing the
spans `(p, q)` of the returned parts.  `p` is the start of the pending
part, `q` the scan position; a zero-progress match bumps the scan by one.
Each step increases `q` or increases `p + q`, so `2·|content| + 2` fuel
dominates the loop. -/
def jsSplitSpansAux (m : ChunkMatcher) (content : List Char) :
    Nat → Nat → Nat → List (Nat × Nat)
  | 0, p, _ => [(p, content.length)]
  | fuel + 1, p, q =>
    if q < content.length then
      match m content q with
      | none => jsSplitSpansAux m content fuel p (q + 1)
      | some len =>
        let e := min (q + len) content.length
        if e = p then jsSplitSpansAux m content fuel p (q + 1)
        else (p, q) :: jsSplitSpansAux m content fuel e e
    else [(p, content.length)]

/-- Spans of `content.split(regex)`.  The empty string is special-cased as
in ECMAScript: a regex that matches the empty string yields `[]`,
otherwise the result is `[""]`. -/
def jsSplitSpans (m : ChunkMatcher) (content : List Char) : List (Nat × Nat) :=
  if content.length = 0 then
    match m content 0 with
    | some _ => []
    | none => [(0, 0)]
  else jsSplitSpansAux m content (2 * content.length + 2) 0 0

/-- `content.split(regex)` as a list of parts. -/
def jsSplit (m : ChunkMatcher) (content : List Char) : List (List Char) :=
  (jsSplitSpans m content).map fun s => (content.drop s.1).take (s.2 - s.1)

/-! ### Constants (`constants.ts`) -/

def DEFAULT_CHUNK_SIZE : Int := 10000
def DEFAULT_OVERLAP : Int := 200
def DEFAULT_LINES_PER_CHUNK : Int := 100
def MAX_SEARCH_RESULTS : Nat := 500

/-! ### decompose and the six strategies (`context-processor.ts`) -/

/-- The options record of `ContextProcessor.decompose`; `none` models an
absent field.  `pattern` holds the compiled matcher of the caller's regex
string; an empty pattern string is falsy in `options.pattern || '\n\n+'`
and therefore behaves like an absent pattern. -/
structure DecomposeOptions where
  chunkSize : Option Int := none
  overlap : Option Int := none
  linesPerChunk : Option Int := none
  separator : Option (List Char) := none
  pattern : Option ChunkMatcher := none

/-- JavaScript `options.x || default`: an absent field **or a zero value**
(zero is falsy) selects the default. -/
def orDefault (o : Option Int) (d : Int) : Int :=
  match o with
  | none => d
  | some v => if v = 0 then d else v

/-- Loop of `decomposeBySize` (lines 71–94): emit `[offset, min(offset +
chunkSize, len))`, advance by `chunkSize - overlap`, and break after the
push when `chunkSize - overlap ≤ 0`.  When the step is positive the offset
grows by at least one per iteration, so `length + 1` fuel dominates the
loop; otherwise the loop breaks in its first iteration. -/
def decomposeBySizeAux (content : List Char) (cs ov : Int) :
    Nat → Int → Nat → List Chunk
  | 0, _, _ => []
  | fuel + 1, offset, idx =>
    if offset < (content.length : Int) then
      let e := min (offset + cs) (content.length : Int)
      let c : Chunk := ⟨idx, jsSlice content offset e, offset, e, none⟩
      if cs - ov ≤ 0 then [c]
      else c :: decomposeBySizeAux content cs ov fuel (offset + (cs - ov)) (idx + 1)
    else []

/-- `ContextProcessor.decomposeBySize`. -/
def decomposeBySize (content : List Char) (cs ov : Int) : List Chunk :=
  decomposeBySizeAux content cs ov (content.length + 1) 0 0

/-- Sum of `line.length + 1` over a list of lines: what the advance loop of
`decomposeByLines` adds to `charOffset` for each consumed line. -/
def sumLinesPlus1 (ls : List (List Char)) : Nat :=
  (ls.map fun l => l.length + 1).sum

/-- Loop of `decomposeByLines` (lines 99–133): slice `linesPerChunk` lines,
join them with `'\n'`, record character offsets, then advance by
`max(1, linesPerChunk - overlapLines)` lines, adding `length + 1` to
`charOffset` for every consumed line that exists.  The line index grows by
at least one per iteration, so `lines.length + 1` fuel dominates. -/
def decomposeByLinesAux (lpc ov : Int) (lines : List (List Char)) :
    Nat → Nat → Nat → Nat → List Chunk
  | 0, _, _, _ => []
  | fuel + 1, li, charOffset, idx =>
    if li < lines.length then
      let chunkLines := jsSlice lines (li : Int) ((li : Int) + lpc)
      let chunkContent := joinSep '\n' chunkLines
      let adv := (max 1 (lpc - ov)).toNat
      let c : Chunk := ⟨idx, chunkContent, (charOffset : Int),
        ((charOffset + chunkContent.length : Nat) : Int),
        some (.lines li (min ((li : Int) + lpc) (lines.length : Int) - 1))⟩
      c :: decomposeByLinesAux lpc ov lines fuel (li + adv)
        (charOffset + sumLinesPlus1 ((lines.drop li).take adv)) (idx + 1)
    else []

/-- `ContextProcessor.decomposeByLines`. -/
def decomposeByLines (content : List Char) (lpc ov : Int) : List Chunk :=
  let lines := splitOnChar '\n' content
  decomposeByLinesAux lpc ov lines (lines.length + 1) 0 0 0

/-- Shared `forEach` body of `decomposeByParagraphs` (lines 143–154) and
`decomposeByRegex` (lines 234–245): skip parts that are empty after
trimming **without resetting the index**, locate each kept part by a
forward `indexOf` scan from the end of the previously located part
(`-1` models a failed `indexOf`). -/
def splitChunksAux (content : List Char) : List (List Char) → Nat → Int → List Chunk
  | [], _, _ => []
  | part :: rest, idx, offset =>
    if jsTrim part ≠ [] then
      let startOffset : Int :=
        match jsIndexOfClamped content part offset with
        | some f => (f : Int)
        | none => -1
      let c : Chunk := ⟨idx, jsTrim part, startOffset,
        startOffset + part.length, none⟩
      c :: splitChunksAux content rest (idx + 1) (startOffset + part.length)
    else splitChunksAux content rest (idx + 1) offset

/-- `ContextProcessor.decomposeByParagraphs`: split on `\n\n+`. -/
def decomposeByParagraphs (content : List Char) : List Chunk :=
  splitChunksAux content (jsSplit nlnlMatcher content) 0 0

/-- `ContextProcessor.decomposeByRegex`: split on the caller's pattern. -/
def decomposeByRegex (content : List Char) (m : ChunkMatcher) : List Chunk :=
  splitChunksAux content (jsSplit m content) 0 0

/-! ### Section scanner: `/^(#{1,6})\s+(.+)$/gm` -/

/-- Line terminators excluded by `.` and accepted by multiline `^`/`$`. -/
def isLineTerm (c : Char) : Bool := c = '\n' || c = '\r'

/-- Multiline `^`: position `0` or right after a line terminator. -/
def isLineStart (content : List Char) (i : Nat) : Bool :=
  i = 0 || isLineTerm (content.getD (i - 1) ' ')

/-- Backtracking of `\s+` before `(.+)`: the largest `w' ∈ [1, w]` such
that the character at `j + w'` exists and is not a line terminator (so
that `.` can match it). -/
def findBacktrackWs (content : List Char) (j : Nat) : Nat → Option Nat
  | 0 => none
  | k + 1 =>
    match content.get? (j + (k + 1)) with
    | some c => if isLineTerm c then findBacktrackWs content j k else some (k + 1)
    | none => findBacktrackWs content j k

/-- Attempt of `(#{1,6})\s+(.+)$` anchored at position `i` (the `^` test is
done by the caller): returns the header level, the title (the `(.+)`
capture) and the end position of the whole match.  The `#` run must have
length 1–6 exactly (a shorter greedy choice leaves a `#` that `\s` cannot
match), `\s+` must consume at least one character, and after backtracking
`(.+)` takes the maximal run of non-terminators, after which multiline `$`
always holds. -/
def matchSectionAt (content : List Char) (i : Nat) : Option (Nat × List Char × Nat) :=
  let r := countLeading (· = '#') (content.drop i)
  if r = 0 || 6 < r then none
  else
    let j := i + r
    let w := countLeading isJsWs (content.drop j)
    if w = 0 then none
    else
      match findBacktrackWs content j w with
      | none => none
      | some w' =>
        let title := (content.drop (j + w')).takeWhile fun c => !isLineTerm c
        some (r, title, j + w' + title.length)

/-- One section header found by the `exec` loop of `decomposeBySections`
(lines 169–177): match start, header level, title. -/
structure SectionMatch where
  start : Nat
  level : Nat
  title : List Char
deriving DecidableEq

/-- The `exec` loop with the `g` flag: scan candidate start positions from
the last match end; every match is nonempty, so each step advances the
position and `length + 1` fuel dominates. -/
def sectionScanAux (content : List Char) : Nat → Nat → List SectionMatch
  | 0, _ => []
  | fuel + 1, i =>
    if i < content.length then
      if isLineStart content i then
        match matchSectionAt content i with
        | some x => ⟨i, x.1, x.2.1⟩ :: sectionScanAux content fuel x.2.2
        | none => sectionScanAux content fuel (i + 1)
      else sectionScanAux content fuel (i + 1)
    else []

/-- All header matches of `/^(#{1,6})\s+(.+)$/gm` in order. -/
def sectionScan (content : List Char) : List SectionMatch :=
  sectionScanAux content (content.length + 1) 0

/-- Per-section loop of `decomposeBySections` (lines 204–220): each section
runs from its header to the next header (or the end of the text). -/
def sectionChunksAux (content : List Char) : List SectionMatch → Nat → List Chunk
  | [], _ => []
  | m :: rest, idx =>
    let endOffset : Nat :=
      match rest with
      | next :: _ => next.start
      | [] => content.length
    ⟨idx, jsTrim (jsSlice content (m.start : Int) (endOffset : Int)),
      (m.start : Int), (endOffset : Int), some (.sect m.level m.title)⟩ ::
      sectionChunksAux content rest (idx + 1)

/-- `ContextProcessor.decomposeBySections` (lines 162–223): no headers
gives one whole-text chunk; otherwise an optional trimmed preamble chunk
precedes the per-header chunks. -/
def decomposeBySections (content : List Char) : List Chunk :=
  match sectionScan content with
  | [] => [⟨0, content, 0, (content.length : Int), none⟩]
  | m0 :: _ =>
    let pre : List Chunk :=
      if 0 < m0.start then
        let preContent := jsTrim (jsSlice content 0 (m0.start : Int))
        if preContent ≠ [] then
          [⟨0, preContent, 0, (m0.start : Int), some .preamble⟩]
        else []
      else []
    pre ++ sectionChunksAux content (sectionScan content) pre.length

/-! ### Sentence scanner: `/[^.!?]+[.!?]+\s*/g` -/

def isSentTerm (c : Char) : Bool := c = '.' || c = '!' || c = '?'

/-- The `exec` loop of `decomposeBySentences`: from the scan position skip
sentence terminators (where `[^.!?]+` cannot start), take the maximal run
of non-terminators, require at least one terminator after it, then
greedily consume terminators and whitespace.  Each match ends strictly
after the scan position, so `length + 1` fuel dominates. -/
def sentenceScanAux (content : List Char) : Nat → Nat → List (Nat × Nat)
  | 0, _ => []
  | fuel + 1, q =>
    if q < content.length then
      let s := q + countLeading isSentTerm (content.drop q)
      if s < content.length then
        let a := countLeading (fun c => !isSentTerm c) (content.drop s)
        if s + a < content.length then
          let b := countLeading isSentTerm (content.drop (s + a))
          let w := countLeading isJsWs (content.drop (s + a + b))
          (s, s + a + b + w) :: sentenceScanAux content fuel (s + a + b + w)
        else []
      else []
    else []

/-- All sentence matches in order. -/
def sentenceScan (content : List Char) : List (Nat × Nat) :=
  sentenceScanAux content (content.length + 1) 0

/-- Push loop of `decomposeBySentences` (lines 260–267): one chunk per
match, contiguous indices. -/
def sentenceChunksAux (content : List Char) : List (Nat × Nat) → Nat → List Chunk
  | [], _ => []
  | (s, e) :: rest, idx =>
    ⟨idx, jsTrim (jsSlice content (s : Int) (e : Int)), (s : Int), (e : Int), none⟩ ::
      sentenceChunksAux content rest (idx + 1)

/-- `ContextProcessor.decomposeBySentences` (lines 253–280). -/
def decomposeBySentences (content : List Char) : List Chunk :=
  match sentenceScan content with
  | [] =>
    if jsTrim content ≠ [] then
      [⟨0, jsTrim content, 0, (content.length : Int), none⟩]
    else []
  | ms => sentenceChunksAux content ms 0

/-- `ContextProcessor.decompose` (lines 25–66): dispatch on the strategy,
replacing falsy (absent **or zero**) numeric options by the defaults. -/
def decompose (content : List Char) (strategy : DecompositionStrategy)
    (options : DecomposeOptions) : List Chunk :=
  match strategy with
  | .fixedSize =>
    decomposeBySize content (orDefault options.chunkSize DEFAULT_CHUNK_SIZE)
      (orDefault options.overlap DEFAULT_OVERLAP)
  | .byLines =>
    decomposeByLines content (orDefault options.linesPerChunk DEFAULT_LINES_PER_CHUNK)
      (orDefault options.overlap 10)
  | .byParagraphs => decomposeByParagraphs content
  | .bySections => decomposeBySections content
  | .byRegex => decomposeByRegex content (options.pattern.getD nlnlMatcher)
  | .bySentences => decomposeBySentences content

/-! ### search and findAll -/

/-- One `exec` result of a compiled search regex. -/
structure JsMatch where
  index : Nat
  matched : List Char
  groups : List (Option (List Char))

/-- Model of a compiled search regex (pattern plus flags): `exec` from a
given `lastIndex`. -/
def RegexExec : Type := List Char → Nat → Option JsMatch

/-- The `SearchMatch` record of `types.ts`. -/
structure SearchMatch where
  matched : List Char
  index : Nat
  lineNumber : Nat
  context : List Char
  groups : List (Option (List Char))

/-- Options of `ContextProcessor.search` with their defaults; the `flags`
string is part of the compiled `RegexExec`. -/
structure SearchOpts where
  contextChars : Nat := 100
  maxResults : Nat := MAX_SEARCH_RESULTS
  includeLineNumbers : Bool := true

/-- The `exec` loop of `ContextProcessor.search` (lines 308–329): each
iteration pushes exactly one result and the loop stops at `maxResults`
results, so `maxResults` is an exact fuel.  A zero-length match bumps
`lastIndex` by one. -/
def searchLoop (content : List Char) (exec : RegexExec) (cc : Nat) (incl : Bool) :
    Nat → Nat → List SearchMatch
  | 0, _ => []
  | fuel + 1, lastIndex =>
    match exec content lastIndex with
    | none => []
    | some m =>
      let s := m.index - cc
      let e := min content.length (m.index + m.matched.length + cc)
      let ln := if incl then (splitOnChar '\n' (content.take m.index)).length else 0
      let next := m.index + m.matched.length + (if m.matched.length = 0 then 1 else 0)
      ⟨m.matched, m.index, ln, jsSlice content (s : Int) (e : Int), m.groups⟩ ::
        searchLoop content exec cc incl fuel next

/-- `ContextProcessor.search` (lines 285–335): the whole body runs inside
`try … catch`, and the only throwing step is `new RegExp` — modelled by
`compiled = none` — so an invalid pattern yields the empty result list and
the function never throws. -/
def search (content : List Char) (compiled : Option RegexExec)
    (opts : SearchOpts) : List SearchMatch :=
  match compiled with
  | none => []
  | some exec =>
    searchLoop content exec opts.contextChars opts.includeLineNumbers opts.maxResults 0

/-- `ContextProcessor.findAll` inner loop (lines 389–393): repeated
`indexOf`, advancing by the term length after each hit.  For a nonempty
term every hit position is below `content.length` and positions strictly
increase, so `length + 1` fuel dominates (an empty term would loop forever
in the source; the tool schema requires a nonempty substring). -/
def findAllAux (searchContent term : List Char) : Nat → Nat → List Nat
  | 0, _ => []
  | fuel + 1, pos =>
    match jsIndexOf searchContent term pos with
    | none => []
    | some f => f :: findAllAux searchContent term fuel (f + term.length)

/-- ASCII model of `String.prototype.toLowerCase`. -/
def jsToLower (l : List Char) : List Char := l.map Char.toLower

/-- `ContextProcessor.findAll` (lines 384–396). -/
def findAll (content substring : List Char) (caseSensitive : Bool) : List Nat :=
  let sc := if caseSensitive then content else jsToLower content
  let st := if caseSensitive then substring else jsToLower substring
  findAllAux sc st (content.length + 1) 0

/-! ### Tool handlers (`rlm-tools.ts`) -/

/-- A tool handler result: a structured output or an explicit error text. -/
inductive ToolResponse (α : Type) where
  | ok (output : α)
  | err (message : List Char)

/-- One entry of the `rlm_get_chunks` response. -/
structure ChunkItem where
  index : Int
  content : List Char
  start_offset : Int
  end_offset : Int
deriving DecidableEq

/-- The `rlm_get_chunks` output object. -/
structure GetChunksOutput where
  requested : Nat
  returned : Nat
  chunks : List ChunkItem
deriving DecidableEq

/-- The `rlm_get_chunks` handler (rlm-tools.ts lines 338–377) after the
context has been resolved: re-derive the decomposition from the request's
strategy, `chunk_size` and `overlap` (the zod schema only forces these to
be integers), keep the requested indices that are in range — silently
dropping the rest — and map them to chunk records. -/
def rlmGetChunks (content : List Char) (strategy : DecompositionStrategy)
    (chunkSize overlap : Int) (chunkIndices : List Int) : GetChunksOutput :=
  let allChunks := decompose content strategy
    { chunkSize := some chunkSize, overlap := some overlap }
  let valid := chunkIndices.filter fun i =>
    decide (0 ≤ i) && decide (i < (allChunks.length : Int))
  let items := valid.map fun i =>
    let c := allChunks.getD i.toNat default
    (⟨i, c.content, c.startOffset, c.endOffset⟩ : ChunkItem)
  ⟨chunkIndices.length, items.length, items⟩

/-- The `rlm_search_context` output object. -/
structure SearchOutput where
  total_matches : Nat
  matchList : List SearchMatch

/-- The `rlm_search_context` handler (rlm-tools.ts lines 405–441) after the
context has been resolved.  The handler wraps `contextProcessor.search` in
`try … catch` and would report `Error: Invalid regex pattern` on a throw,
but `search` catches every error internally (returning `[]`), so the
handler's catch branch is unreachable and the response is always `ok`. -/
def rlmSearchContext (content : List Char) (compiled : Option RegexExec)
    (opts : SearchOpts) : ToolResponse SearchOutput :=
  let found := search content compiled opts
  ToolResponse.ok ⟨found.length, found⟩

/-! ### Lemmas about the JavaScript builtin models -/

theorem splitOnChar_ne_nil (c : Char) (l : List Char) : splitOnChar c l ≠ [] := by
  cases l with
  | nil => simp [splitOnChar]
  | cons x xs =>
    simp only [splitOnChar]
    rcases h : splitOnChar c xs with _ | ⟨p, t⟩
    · simp
    · by_cases hx : x = c <;> simp [hx]

theorem joinSep_cons_cons (c : Char) (x : Char) (h t0 : List Char) (t : List (List Char)) :
    joinSep c ((x :: h) :: t0 :: t) = x :: joinSep c (h :: t0 :: t) := by
  simp [joinSep]

theorem splitOnChar_cons_eq (c x : Char) (xs p : List Char) (t : List (List Char))
    (h : splitOnChar c xs = p :: t) :
    splitOnChar c (x :: xs) = if x = c then [] :: p :: t else (x :: p) :: t := by
  simp only [splitOnChar, h]

theorem joinSep_splitOnChar (c : Char) (l : List Char) :
    joinSep c (splitOnChar c l) = l := by
  induction l with
  | nil => simp [splitOnChar, joinSep]
  | cons x xs ih =>
    rcases h : splitOnChar c xs with _ | ⟨p, t⟩
    · exact absurd h (splitOnChar_ne_nil c xs)
    · rw [h] at ih
      rw [splitOnChar_cons_eq c x xs p t h]
      by_cases hx : x = c
      · subst hx
        simpa [joinSep] using ih
      · rw [if_neg hx]
        cases t with
        | nil =>
          simp only [joinSep] at ih ⊢
          rw [ih]
        | cons t0 ts => rw [joinSep_cons_cons, ih]

theorem sumLinesPlus1_cons (x : List Char) (t : List (List Char)) :
    sumLinesPlus1 (x :: t) = x.length + 1 + sumLinesPlus1 t := by
  simp [sumLinesPlus1]

theorem sumLinesPlus1_append (a b : List (List Char)) :
    sumLinesPlus1 (a ++ b) = sumLinesPlus1 a + sumLinesPlus1 b := by
  simp [sumLinesPlus1]

theorem sumLinesPlus1_pos (ls : List (List Char)) (h : ls ≠ []) :
    1 ≤ sumLinesPlus1 ls := by
  cases ls with
  | nil => exact absurd rfl h
  | cons x t => rw [sumLinesPlus1_cons]; omega

theorem joinSep_length (c : Char) (ls : List (List Char)) (h : ls ≠ []) :
    (joinSep c ls).length + 1 = sumLinesPlus1 ls := by
  induction ls with
  | nil => exact absurd rfl h
  | cons x t ih =>
    cases t with
    | nil => simp [joinSep, sumLinesPlus1]
    | cons y ts =>
      have hy := ih (by simp)
      rw [sumLinesPlus1_cons, ← hy]
      simp only [joinSep, List.length_append, List.length_cons]
      omega

theorem length_splitOnChar (c : Char) (l : List Char) :
    l.length + 1 = sumLinesPlus1 (splitOnChar c l) := by
  conv_lhs => rw [← joinSep_splitOnChar c l]
  exact joinSep_length c _ (splitOnChar_ne_nil c l)

theorem splitOnChar_not_mem (c : Char) (l : List Char) (h : c ∉ l) :
    splitOnChar c l = [l] := by
  induction l with
  | nil => simp [splitOnChar]
  | cons x xs ih =>
    simp only [List.mem_cons, not_or] at h
    simp only [splitOnChar, ih h.2]
    simp [Ne.symm h.1]

theorem jsSlice_nat {α : Type} (l : List α) (a b : Nat) (hab : a ≤ b)
    (hb : b ≤ l.length) : jsSlice l (a : Int) (b : Int) = (l.drop a).take (b - a) := by
  have ha : a ≤ l.length := le_trans hab hb
  simp only [jsSlice]
  rw [if_neg (show ¬((a : Int) < 0) by omega),
    if_neg (show ¬((b : Int) < 0) by omega),
    min_eq_left (show (a : Int) ≤ (l.length : Int) by exact_mod_cast ha),
    min_eq_left (show (b : Int) ≤ (l.length : Int) by exact_mod_cast hb)]
  by_cases hlt : a < b
  · rw [if_pos (show (a : Int) < (b : Int) by exact_mod_cast hlt), Int.toNat_ofNat]
    have hsub : ((b : Int) - (a : Int)).toNat = b - a := by omega
    rw [hsub]
  · have hba : a = b := by omega
    subst hba
    rw [if_neg (by omega)]
    simp

theorem jsSlice_exists_take {α : Type} (l : List α) (li : Nat) (x : Int) :
    ∃ k, jsSlice l (li : Int) x = (l.drop li).take k := by
  by_cases hli : li ≤ l.length
  · simp only [jsSlice]
    rw [if_neg (show ¬((li : Int) < 0) by omega),
      min_eq_left (show (li : Int) ≤ (l.length : Int) by exact_mod_cast hli)]
    set e0 : Int := if x < 0 then max ((l.length : Int) + x) 0
      else min x (l.length : Int)
    by_cases hlt : (li : Int) < e0
    · rw [if_pos hlt, Int.toNat_ofNat]
      exact ⟨(e0 - (li : Int)).toNat, rfl⟩
    · rw [if_neg hlt]
      exact ⟨0, by simp⟩
  · have hd : l.drop li = [] := List.drop_eq_nil_iff.mpr (by omega)
    refine ⟨0, ?_⟩
    rw [hd]
    simp only [jsSlice]
    rw [if_neg (show ¬((li : Int) < 0) by omega),
      min_eq_right (show (l.length : Int) ≤ (li : Int) by
        exact_mod_cast (by omega : l.length ≤ li))]
    set e0 : Int := if x < 0 then max ((l.length : Int) + x) 0
      else min x (l.length : Int)
    by_cases hlt : (l.length : Int) < e0
    · rw [if_pos hlt, Int.toNat_ofNat, List.drop_length]
      simp
    · rw [if_neg hlt]
      simp

theorem findOccur_some (content sub : List Char) (i fuel f : Nat)
    (h : findOccur content sub i fuel = some f) :
    i ≤ f ∧ occursAt content sub f = true := by
  induction fuel generalizing i with
  | zero => simp [findOccur] at h
  | succ fuel ih =>
    simp only [findOccur] at h
    split at h
    · cases h; exact ⟨le_refl _, by assumption⟩
    · have := ih (i + 1) h
      exact ⟨by omega, this.2⟩

theorem findOccur_complete (content sub : List Char) (i fuel j : Nat)
    (hj : occursAt content sub j = true) (hij : i ≤ j) (hlt : j < i + fuel) :
    ∃ f, findOccur content sub i fuel = some f ∧ f ≤ j := by
  induction fuel generalizing i with
  | zero => omega
  | succ fuel ih =>
    simp only [findOccur]
    by_cases h : occursAt content sub i = true
    · rw [if_pos h]
      exact ⟨i, rfl, hij⟩
    · rw [if_neg h]
      have hne : i ≠ j := fun he => h (he ▸ hj)
      exact ih (i + 1) (by omega) (by omega)

theorem occursAt_bound (content sub : List Char) (f : Nat)
    (h : occursAt content sub f = true) (hf : f ≤ content.length) :
    f + sub.length ≤ content.length := by
  simp only [occursAt, List.isPrefixOf_iff_prefix] at h
  have := h.length_le
  simp at this
  omega

theorem jsIndexOf_some (content sub : List Char) (start f : Nat)
    (h : jsIndexOf content sub start = some f) :
    min start content.length ≤ f ∧ occursAt content sub f = true := by
  simp only [jsIndexOf] at h
  exact findOccur_some content sub _ _ f h

theorem jsIndexOf_complete (content sub : List Char) (start a : Nat)
    (ha : occursAt content sub a = true) (hsa : start ≤ a) (hal : a ≤ content.length) :
    ∃ f, jsIndexOf content sub start = some f ∧ start ≤ f ∧ f ≤ a ∧
      occursAt content sub f = true := by
  simp only [jsIndexOf]
  have hs : min start content.length = start := by omega
  rw [hs]
  obtain ⟨f, hf, hfa⟩ := findOccur_complete content sub start
    (content.length + 1 - start) a ha hsa (by omega)
  have := findOccur_some content sub start _ f hf
  exact ⟨f, hf, this.1, hfa, this.2⟩

/-! ### Fixed-size decomposition lemmas -/

theorem decomposeBySizeAux_concat (content : List Char) (cs : Int) (hcs : 1 ≤ cs) :
    ∀ (fuel o idx : Nat), content.length ≤ o + fuel →
      ((decomposeBySizeAux content cs 0 fuel (o : Int) idx).map Chunk.content).flatten
        = content.drop o := by
  intro fuel
  induction fuel with
  | zero =>
    intro o idx h
    simp only [decomposeBySizeAux, List.map_nil, List.flatten_nil]
    exact (List.drop_eq_nil_iff.mpr (by omega)).symm
  | succ fuel ih =>
    intro o idx h
    simp only [decomposeBySizeAux]
    by_cases ho : (o : Int) < (content.length : Int)
    · rw [if_pos ho]
      have hol : o < content.length := by exact_mod_cast ho
      rw [if_neg (show ¬cs - 0 ≤ 0 by omega)]
      have hen : min ((o : Int) + cs) (content.length : Int)
          = ((min (o + cs.toNat) content.length : Nat) : Int) := by
        rw [Nat.cast_min]
        congr 1
        push_cast
        omega
      have hoff : (o : Int) + (cs - 0) = ((o + cs.toNat : Nat) : Int) := by
        push_cast
        omega
      rw [hen, hoff]
      simp only [List.map_cons, List.flatten_cons]
      rw [ih (o + cs.toNat) (idx + 1) (by omega)]
      rw [jsSlice_nat content o (min (o + cs.toNat) content.length)
        (by omega) (by omega)]
      have hdd : content.drop (o + cs.toNat) = (content.drop o).drop cs.toNat := by
        rw [List.drop_drop]
      rw [hdd]
      have hlen : (content.drop o).length = content.length - o := by simp
      have htk : (content.drop o).take (min (o + cs.toNat) content.length - o)
          = (content.drop o).take cs.toNat := by
        rcases le_or_lt (o + cs.toNat) content.length with hle | hlt
        · congr 1
          omega
        · have h1 : min (o + cs.toNat) content.length - o = content.length - o := by
            omega
          rw [h1, ← hlen, List.take_length, List.take_of_length_le (by omega)]
      rw [htk, List.take_append_drop]
    · rw [if_neg ho]
      simp only [List.map_nil, List.flatten_nil]
      exact (List.drop_eq_nil_iff.mpr (by exact_mod_cast not_lt.mp ho)).symm

theorem decomposeBySizeAux_bounds (content : List Char) (cs ov : Int) (hcs : 1 ≤ cs) :
    ∀ (fuel : Nat) (offset : Int) (idx : Nat), 0 ≤ offset →
      ∀ c ∈ decomposeBySizeAux content cs ov fuel offset idx,
        0 ≤ c.startOffset ∧ c.startOffset ≤ c.endOffset ∧
          c.endOffset ≤ (content.length : Int) := by
  intro fuel
  induction fuel with
  | zero => intro offset idx _ c hc; simp [decomposeBySizeAux] at hc
  | succ fuel ih =>
    intro offset idx hoff c hc
    simp only [decomposeBySizeAux] at hc
    by_cases ho : offset < (content.length : Int)
    · rw [if_pos ho] at hc
      by_cases hbrk : cs - ov ≤ 0
      · rw [if_pos hbrk] at hc
        simp only [List.mem_singleton] at hc
        subst hc
        refine ⟨hoff, ?_, ?_⟩ <;> simp only [] <;> omega
      · rw [if_neg hbrk] at hc
        rcases List.mem_cons.mp hc with h1 | h2
        · subst h1
          refine ⟨hoff, ?_, ?_⟩ <;> simp only [] <;> omega
        · exact ih (offset + (cs - ov)) (idx + 1) (by omega) c h2
    · rw [if_neg ho] at hc
      simp at hc

theorem decomposeBySizeAux_order (content : List Char) (cs ov : Int) :
    ∀ (fuel : Nat) (offset : Int) (idx : Nat),
      (∀ c ∈ decomposeBySizeAux content cs ov fuel offset idx, offset ≤ c.startOffset) ∧
      List.Chain' (fun a b => a.startOffset ≤ b.startOffset)
        (decomposeBySizeAux content cs ov fuel offset idx) ∧
      (decomposeBySizeAux content cs ov fuel offset idx).map Chunk.index
        = List.range' idx (decomposeBySizeAux content cs ov fuel offset idx).length := by
  intro fuel
  induction fuel with
  | zero =>
    intro offset idx
    simp [decomposeBySizeAux]
  | succ fuel ih =>
    intro offset idx
    simp only [decomposeBySizeAux]
    by_cases ho : offset < (content.length : Int)
    · rw [if_pos ho]
      by_cases hbrk : cs - ov ≤ 0
      · rw [if_pos hbrk]
        refine ⟨?_, ?_, ?_⟩
        · intro c hc
          simp only [List.mem_singleton] at hc
          subst hc
          exact le_refl _
        · simp
        · simp [List.range']
      · rw [if_neg hbrk]
        obtain ⟨ihmem, ihchain, ihidx⟩ := ih (offset + (cs - ov)) (idx + 1)
        refine ⟨?_, ?_, ?_⟩
        · intro c hc
          rcases List.mem_cons.mp hc with h1 | h2
          · subst h1; exact le_refl _
          · exact le_trans (show offset ≤ offset + (cs - ov) by omega) (ihmem c h2)
        · rw [List.chain'_cons']
          refine ⟨?_, ihchain⟩
          intro y hy
          have hmem : y ∈ decomposeBySizeAux content cs ov fuel (offset + (cs - ov)) (idx + 1) :=
            List.mem_of_mem_head? hy
          exact le_trans (show offset ≤ offset + (cs - ov) by omega) (ihmem y hmem)
        · simp only [List.map_cons, List.length_cons, List.range']
          rw [ihidx]
    · rw [if_neg ho]
      simp [decomposeBySizeAux]

/-! ### By-lines helper lemmas -/

theorem decomposeByLinesAux_nil (lpc ov : Int) (lines : List (List Char))
    (fuel li co idx : Nat) (h : lines.length ≤ li) :
    decomposeByLinesAux lpc ov lines fuel li co idx = [] := by
  cases fuel with
  | zero => simp [decomposeByLinesAux]
  | succ fuel =>
    simp only [decomposeByLinesAux]
    rw [if_neg (by omega)]

theorem advance_pos (lpc ov : Int) : 1 ≤ (max 1 (lpc - ov)).toNat := by
  have h : (1 : Int) ≤ max 1 (lpc - ov) := le_max_left _ _
  omega

theorem decomposeByLinesAux_one (lpc ov : Int) (lines : List (List Char))
    (fuel li co idx : Nat) (h1 : li < lines.length)
    (h2 : lines.length ≤ li + (max 1 (lpc - ov)).toNat) :
    (decomposeByLinesAux lpc ov lines (fuel + 1) li co idx).length = 1 := by
  simp only [decomposeByLinesAux]
  rw [if_pos h1, decomposeByLinesAux_nil lpc ov lines fuel _ _ _ (by omega)]
  simp

/-! ### Claim theorems: C1, C3, C5, C9 -/

/-- C1: for every text and every `chunkSize >= 1`, fixed-size decomposition
invoked with `overlap = 0` returns chunks whose contents, concatenated in
index order, reproduce the original text exactly. -/
theorem decomposeBySize_overlap0_concat (content : List Char) (cs : Int)
    (hcs : 1 <= cs) :
    ((decomposeBySize content cs 0).map Chunk.content).flatten = content := by
  unfold decomposeBySize
  have h := decomposeBySizeAux_concat content cs hcs (content.length + 1) 0 0 (by omega)
  rw [Nat.cast_zero] at h
  rw [h, List.drop_zero]

/-- Witness for C1 at `content = "abcde"`, `chunkSize = 2`. -/
theorem decomposeBySize_overlap0_concat_witness :
    (1 : Int) <= 2 /\
    ((decomposeBySize "abcde".toList 2 0).map Chunk.content).flatten = "abcde".toList :=
  ⟨by norm_num, decomposeBySize_overlap0_concat "abcde".toList 2 (by norm_num)⟩

/-- C3 counterexample: by-lines decomposition of the empty string does
**not** return an empty chunk sequence — `"".split('\n')` is `[""]`, so one
chunk with empty content and offsets `0, 0` is produced. -/
theorem byLines_empty_counterexample :
    decompose [] .byLines {} = [⟨0, [], 0, 0, some (.lines 0 0)⟩] /\
    decompose [] .byLines {} ≠ [] := by
  constructor <;> decide

/-- C3 (amended): by-lines decomposition of any text containing no newline
character — including the empty text — returns exactly one chunk, for
every `linesPerChunk` and `overlap`. -/
theorem byLines_single_chunk_no_newline (content : List Char) (lpc ov : Int)
    (h : '\n' ∉ content) : (decomposeByLines content lpc ov).length = 1 := by
  unfold decomposeByLines
  rw [splitOnChar_not_mem '\n' content h]
  exact decomposeByLinesAux_one lpc ov [content] _ 0 0 0 (by simp)
    (by have h2 := advance_pos lpc ov
        simp only [List.length_cons, List.length_nil]
        omega)

/-- Witness for C3 (amended) at `content = "hello"`. -/
theorem byLines_single_chunk_no_newline_witness :
    '\n' ∉ "hello".toList /\ (decomposeByLines "hello".toList 100 10).length = 1 :=
  ⟨by decide, byLines_single_chunk_no_newline "hello".toList 100 10 (by decide)⟩

/-- C5 counterexample: decomposing `"line1\nline2\nline3\nline4"` through
`decompose` with `by-lines`, `linesPerChunk = 2` and `overlap = 0` does
**not** return two chunks: the explicit `overlap = 0` is falsy and is
replaced by the default `10`, so the line advance is `max(1, 2-10) = 1`
and four chunks are returned. -/
theorem byLines_example_dispatch_counterexample :
    (decompose "line1\nline2\nline3\nline4".toList .byLines
      ⟨none, some 0, some 2, none, none⟩).length = 4 /\ (4 : Nat) ≠ 2 := by
  constructor <;> decide

/-- C5 (amended): the two claimed chunks — `"line1\nline2"` at offsets
`[0, 11]` and `"line3\nline4"` at offsets `[12, 23]` — are what the
underlying `decomposeByLines` routine returns for `linesPerChunk = 2`,
`overlapLines = 0`; through `decompose` the falsy `overlap = 0` becomes
`10` and the same text yields four chunks. -/
theorem byLines_example_chunks :
    decomposeByLines "line1\nline2\nline3\nline4".toList 2 0 =
      [⟨0, "line1\nline2".toList, 0, 11, some (.lines 0 1)⟩,
       ⟨1, "line3\nline4".toList, 12, 23, some (.lines 2 3)⟩] /\
    (decompose "line1\nline2\nline3\nline4".toList .byLines
      ⟨none, some 0, some 2, none, none⟩).length = 4 := by
  constructor <;> decide

/-- C9: replacing an explicit `overlap = 0` by the default (200 for
fixed-size, 10 for by-lines) does not change the result of `decompose`,
because zero-valued (falsy) options are replaced by the defaults before
dispatch. -/
theorem decompose_zero_overlap_default (content : List Char) (opts : DecomposeOptions) :
    decompose content .fixedSize { opts with overlap := some 0 }
      = decompose content .fixedSize { opts with overlap := some 200 } /\
    decompose content .byLines { opts with overlap := some 0 }
      = decompose content .byLines { opts with overlap := some 10 } := by
  constructor <;> norm_num [decompose, orDefault, DEFAULT_OVERLAP]

/-! ### By-lines bounds and ordering -/

theorem sumLinesPlus1_take_le (l : List (List Char)) (k : Nat) :
    sumLinesPlus1 (l.take k) ≤ sumLinesPlus1 l := by
  conv_rhs => rw [← List.take_append_drop k l]
  rw [sumLinesPlus1_append]
  omega

theorem decomposeByLinesAux_bounds (lpc ov : Int) (lines : List (List Char)) (L : Nat)
    (hL : L + 1 = sumLinesPlus1 lines) :
    ∀ (fuel li co idx : Nat), co = sumLinesPlus1 (lines.take li) →
      ∀ c ∈ decomposeByLinesAux lpc ov lines fuel li co idx,
        0 ≤ c.startOffset ∧ c.startOffset ≤ c.endOffset ∧
          c.endOffset ≤ (L : Int) := by
  intro fuel
  induction fuel with
  | zero => intro li co idx _ c hc; simp [decomposeByLinesAux] at hc
  | succ fuel ih =>
    intro li co idx hco c hc
    simp only [decomposeByLinesAux] at hc
    by_cases hli : li < lines.length
    · rw [if_pos hli] at hc
      have hdrop_ne : lines.drop li ≠ [] := by
        intro hd
        have := List.drop_eq_nil_iff.mp hd
        omega
      have hsplit : sumLinesPlus1 (lines.take li) + sumLinesPlus1 (lines.drop li)
          = L + 1 := by
        rw [← sumLinesPlus1_append, List.take_append_drop, hL]
      have hdpos : 1 ≤ sumLinesPlus1 (lines.drop li) :=
        sumLinesPlus1_pos _ hdrop_ne
      have hco_le : co ≤ L := by omega
      rcases List.mem_cons.mp hc with h1 | h2
      · subst h1
        obtain ⟨k, hk⟩ := jsSlice_exists_take lines li ((li : Int) + lpc)
        refine ⟨by positivity, by simp only []; omega, ?_⟩
        simp only []
        rw [hk]
        by_cases htk : (lines.drop li).take k = []
        · rw [htk]
          simp only [joinSep, List.length_nil]
          push_cast
          omega
        · have hjl := joinSep_length '\n' _ htk
          have hle : sumLinesPlus1 ((lines.drop li).take k)
              ≤ sumLinesPlus1 (lines.drop li) := sumLinesPlus1_take_le _ k
          push_cast
          omega
      · apply ih (li + (max 1 (lpc - ov)).toNat) _ (idx + 1) ?_ c h2
        rw [hco, List.take_add, sumLinesPlus1_append]
    · rw [if_neg hli] at hc
      simp at hc

theorem decomposeByLinesAux_order (lpc ov : Int) (lines : List (List Char)) :
    ∀ (fuel li co idx : Nat),
      (∀ c ∈ decomposeByLinesAux lpc ov lines fuel li co idx,
        (co : Int) ≤ c.startOffset) ∧
      List.Chain' (fun a b => a.startOffset ≤ b.startOffset)
        (decomposeByLinesAux lpc ov lines fuel li co idx) ∧
      (decomposeByLinesAux lpc ov lines fuel li co idx).map Chunk.index
        = List.range' idx (decomposeByLinesAux lpc ov lines fuel li co idx).length := by
  intro fuel
  induction fuel with
  | zero => intro li co idx; simp [decomposeByLinesAux]
  | succ fuel ih =>
    intro li co idx
    simp only [decomposeByLinesAux]
    by_cases hli : li < lines.length
    · rw [if_pos hli]
      obtain ⟨ihmem, ihchain, ihidx⟩ :=
        ih (li + (max 1 (lpc - ov)).toNat)
          (co + sumLinesPlus1 ((lines.drop li).take (max 1 (lpc - ov)).toNat)) (idx + 1)
      refine ⟨?_, ?_, ?_⟩
      · intro c hc
        rcases List.mem_cons.mp hc with h1 | h2
        · subst h1; simp
        · have := ihmem c h2
          have hmono : (co : Int)
              ≤ ((co + sumLinesPlus1 ((lines.drop li).take (max 1 (lpc - ov)).toNat)
                : Nat) : Int) := by push_cast; omega
          exact le_trans hmono this
      · rw [List.chain'_cons']
        refine ⟨?_, ihchain⟩
        intro y hy
        have hmem := List.mem_of_mem_head? hy
        have := ihmem y hmem
        have hmono : (co : Int)
            ≤ ((co + sumLinesPlus1 ((lines.drop li).take (max 1 (lpc - ov)).toNat)
              : Nat) : Int) := by push_cast; omega
        exact le_trans hmono this
      · simp only [List.map_cons, List.length_cons, List.range'_succ]
        rw [ihidx]
    · rw [if_neg hli]
      simp

/-! ### Spans of jsSplit and the shared forEach loop -/

/-- The parts of a JavaScript regex split are substrings of the content
located at non-decreasing positions: each part occurs at some position `a`
at or after the floor `lo`, and the rest is spanned from the end of that
occurrence. -/
inductive SpannedParts (content : List Char) : Nat → List (List Char) → Prop where
  | nil (lo : Nat) : SpannedParts content lo []
  | cons (lo a : Nat) (part : List Char) (rest : List (List Char))
      (hlo : lo ≤ a) (hpre : part <+: content.drop a)
      (hrest : SpannedParts content (a + part.length) rest) :
      SpannedParts content lo (part :: rest)

theorem SpannedParts.mono {content : List Char} {hi : Nat} {ps : List (List Char)}
    (h : SpannedParts content hi ps) {lo : Nat} (hlo : lo ≤ hi) :
    SpannedParts content lo ps := by
  cases h with
  | nil => exact .nil lo
  | cons _ a part rest ha hpre hrest => exact .cons lo a part rest (by omega) hpre hrest

theorem jsSplitSpansAux_spanned (m : ChunkMatcher) (content : List Char) :
    ∀ (fuel p q : Nat), p ≤ q → q ≤ content.length →
      SpannedParts content p ((jsSplitSpansAux m content fuel p q).map
        fun s => (content.drop s.1).take (s.2 - s.1)) := by
  intro fuel
  induction fuel with
  | zero =>
    intro p q hpq hq
    simp only [jsSplitSpansAux, List.map_cons, List.map_nil]
    exact .cons p p _ [] (le_refl p) (List.take_prefix _ _) (.nil _)
  | succ fuel ih =>
    intro p q hpq hq
    simp only [jsSplitSpansAux]
    by_cases hql : q < content.length
    · rw [if_pos hql]
      cases hm : m content q with
      | none => exact ih p (q + 1) (by omega) (by omega)
      | some len =>
        dsimp only
        by_cases he : min (q + len) content.length = p
        · rw [if_pos he]
          exact ih p (q + 1) (by omega) (by omega)
        · rw [if_neg he]
          simp only [List.map_cons]
          have hqe : q ≤ min (q + len) content.length := by omega
          have hlen : ((content.drop p).take (q - p)).length = q - p := by
            simp only [List.length_take, List.length_drop]
            omega
          refine .cons p p _ _ (le_refl p) (List.take_prefix _ _) ?_
          rw [hlen]
          have hrest := ih (min (q + len) content.length)
            (min (q + len) content.length) (le_refl _) (by omega)
          exact hrest.mono (by omega)
    · rw [if_neg hql]
      simp only [List.map_cons, List.map_nil]
      exact .cons p p _ [] (le_refl p) (List.take_prefix _ _) (.nil _)

theorem jsSplit_spanned (m : ChunkMatcher) (content : List Char) :
    SpannedParts content 0 (jsSplit m content) := by
  unfold jsSplit jsSplitSpans
  by_cases h0 : content.length = 0
  · rw [if_pos h0]
    cases hm : m content 0 with
    | none =>
      simp only [List.map_cons, List.map_nil]
      exact .cons 0 0 _ [] (le_refl 0) (List.take_prefix _ _) (.nil _)
    | some _ => simp only [List.map_nil]; exact .nil 0
  · rw [if_neg h0]
    exact jsSplitSpansAux_spanned m content (2 * content.length + 2) 0 0
      (le_refl 0) (by omega)

/-- The `index` values of a chunk list are at least `k, k+1, …`
positionally (the k-th chunk has index at least `first + k`). -/
def idxLB : Nat → List Chunk → Bool
  | _, [] => true
  | k, c :: t => decide (k ≤ c.index) && idxLB (k + 1) t

theorem idxLB_mono (l : List Chunk) : ∀ k, idxLB (k + 1) l = true → idxLB k l = true := by
  induction l with
  | nil => intro k _; rfl
  | cons c t ih =>
    intro k h
    simp only [idxLB, Bool.and_eq_true, decide_eq_true_eq] at h ⊢
    exact ⟨by omega, ih (k + 1) h.2⟩

theorem splitChunksAux_bounds (content : List Char) :
    ∀ (parts : List (List Char)) (lo idx : Nat) (offset : Int),
      offset ≤ (lo : Int) → SpannedParts content lo parts →
      ∀ c ∈ splitChunksAux content parts idx offset,
        (0 ≤ c.startOffset ∧ c.startOffset ≤ c.endOffset ∧
          c.endOffset ≤ (content.length : Int)) ∧ offset ≤ c.startOffset := by
  intro parts
  induction parts with
  | nil => intro lo idx offset _ _ c hc; simp [splitChunksAux] at hc
  | cons part rest ih =>
    intro lo idx offset hol hsp c hc
    cases hsp with
    | cons _ a _ _ hlo hpre hrest =>
      simp only [splitChunksAux] at hc
      by_cases htrim : jsTrim part ≠ []
      · rw [if_pos htrim] at hc
        have hpart_ne : part ≠ [] := by
          intro he
          exact htrim (by simp [he, jsTrim])
        have hdrop_ne : content.drop a ≠ [] := by
          intro hd
          rw [hd] at hpre
          exact hpart_ne (List.prefix_nil.mp hpre)
        have ha_lt : a < content.length := by
          by_contra hh
          exact hdrop_ne (List.drop_eq_nil_iff.mpr (by omega))
        have hocc : occursAt content part a = true := by
          simp only [occursAt, List.isPrefixOf_iff_prefix]
          exact hpre
        have hloa : offset ≤ (a : Int) :=
          le_trans hol (by exact_mod_cast hlo)
        have hstart : offset.toNat ≤ a := Int.toNat_le.mpr hloa
        obtain ⟨f, hf, hf1, hf2, hfocc⟩ :=
          jsIndexOf_complete content part offset.toNat a hocc hstart (by omega)
        have hfeq : jsIndexOfClamped content part offset = some f := by
          simp only [jsIndexOfClamped]
          exact hf
        simp only [hfeq] at hc
        have hfbound : f + part.length ≤ content.length :=
          occursAt_bound content part f hfocc (by omega)
        have hof : offset ≤ (f : Int) :=
          le_trans (Int.self_le_toNat offset) (by exact_mod_cast hf1)
        rcases List.mem_cons.mp hc with h1 | h2
        · subst h1
          refine ⟨⟨?_, ?_, ?_⟩, ?_⟩
          · simp only []; positivity
          · simp only []; omega
          · simp only []; omega
          · simp only []; exact hof
        · have hnext : ((f : Int) + (part.length : Int)) ≤ ((a + part.length : Nat) : Int) := by
            push_cast; omega
          have := ih (a + part.length) (idx + 1)
            ((f : Int) + (part.length : Int)) hnext hrest c h2
          refine ⟨this.1, ?_⟩
          have : ((f : Int) + (part.length : Int)) ≤ c.startOffset := this.2
          have hle : offset ≤ (f : Int) + (part.length : Int) := by
            have h0 : (0 : Int) ≤ (part.length : Int) := by positivity
            omega
          exact le_trans hle this
      · rw [if_neg htrim] at hc
        have hlo' : offset ≤ ((a + part.length : Nat) : Int) := by
          have : ((lo : Nat) : Int) ≤ ((a + part.length : Nat) : Int) := by
            push_cast; omega
          exact le_trans hol this
        exact ih (a + part.length) (idx + 1) offset hlo' hrest c hc

theorem splitChunksAux_order (content : List Char) :
    ∀ (parts : List (List Char)) (lo idx : Nat) (offset : Int),
      offset ≤ (lo : Int) → SpannedParts content lo parts →
      List.Chain' (fun a b => a.startOffset ≤ b.startOffset)
        (splitChunksAux content parts idx offset) ∧
      List.Chain' (fun a b => a.index < b.index)
        (splitChunksAux content parts idx offset) ∧
      (∀ c ∈ splitChunksAux content parts idx offset, idx ≤ c.index) ∧
      idxLB idx (splitChunksAux content parts idx offset) = true := by
  intro parts
  induction parts with
  | nil => intro lo idx offset _ _; simp [splitChunksAux, idxLB]
  | cons part rest ih =>
    intro lo idx offset hol hsp
    cases hsp with
    | cons _ a _ _ hlo hpre hrest =>
      simp only [splitChunksAux]
      by_cases htrim : jsTrim part ≠ []
      · rw [if_pos htrim]
        have hpart_ne : part ≠ [] := by
          intro he
          exact htrim (by simp [he, jsTrim])
        have hdrop_ne : content.drop a ≠ [] := by
          intro hd
          rw [hd] at hpre
          exact hpart_ne (List.prefix_nil.mp hpre)
        have ha_lt : a < content.length := by
          by_contra hh
          exact hdrop_ne (List.drop_eq_nil_iff.mpr (by omega))
        have hocc : occursAt content part a = true := by
          simp only [occursAt, List.isPrefixOf_iff_prefix]
          exact hpre
        have hloa : offset ≤ (a : Int) :=
          le_trans hol (by exact_mod_cast hlo)
        have hstart : offset.toNat ≤ a := Int.toNat_le.mpr hloa
        obtain ⟨f, hf, hf1, hf2, hfocc⟩ :=
          jsIndexOf_complete content part offset.toNat a hocc hstart (by omega)
        have hfeq : jsIndexOfClamped content part offset = some f := by
          simp only [jsIndexOfClamped]
          exact hf
        simp only [hfeq]
        have hnext : ((f : Int) + (part.length : Int)) ≤ ((a + part.length : Nat) : Int) := by
          push_cast; omega
        obtain ⟨ihchain, ihidxchain, ihidxmem, ihlb⟩ :=
          ih (a + part.length) (idx + 1) ((f : Int) + (part.length : Int)) hnext hrest
        have hmemstart := fun c hc => (splitChunksAux_bounds content rest
          (a + part.length) (idx + 1) ((f : Int) + (part.length : Int))
          hnext hrest c hc).2
        refine ⟨?_, ?_, ?_, ?_⟩
        · rw [List.chain'_cons']
          refine ⟨?_, ihchain⟩
          intro y hy
          have hm := List.mem_of_mem_head? hy
          have h1 := hmemstart y hm
          have h0 : (0 : Int) ≤ (part.length : Int) := by positivity
          simp only []
          omega
        · rw [List.chain'_cons']
          refine ⟨?_, ihidxchain⟩
          intro y hy
          have hm := List.mem_of_mem_head? hy
          have := ihidxmem y hm
          simp only []
          omega
        · intro c hc
          rcases List.mem_cons.mp hc with h1 | h2
          · subst h1; simp
          · have := ihidxmem c h2
            omega
        · simp only [idxLB, Bool.and_eq_true, decide_eq_true_eq]
          exact ⟨by simp, ihlb⟩
      · rw [if_neg htrim]
        have hlo' : offset ≤ ((a + part.length : Nat) : Int) := by
          have h2 : ((lo : Nat) : Int) ≤ ((a + part.length : Nat) : Int) := by
            push_cast; omega
          exact le_trans hol h2
        obtain ⟨ihchain, ihidxchain, ihidxmem, ihlb⟩ :=
          ih (a + part.length) (idx + 1) offset hlo' hrest
        refine ⟨ihchain, ihidxchain, ?_, ?_⟩
        · intro c hc
          have := ihidxmem c hc
          omega
        · exact idxLB_mono _ idx ihlb

/-! ### Section scanner lemmas -/

theorem findBacktrackWs_some (content : List Char) (j : Nat) :
    ∀ (k w' : Nat), findBacktrackWs content j k = some w' →
      1 ≤ w' ∧ ∃ ch, content.get? (j + w') = some ch ∧ isLineTerm ch = false := by
  intro k
  induction k with
  | zero => intro w' h; simp [findBacktrackWs] at h
  | succ k ih =>
    intro w' h
    simp only [findBacktrackWs] at h
    cases hg : content.get? (j + (k + 1)) with
    | some c =>
      rw [hg] at h
      dsimp only at h
      by_cases hlt : isLineTerm c = true
      · rw [if_pos hlt] at h
        exact ih w' h
      · rw [if_neg hlt] at h
        cases h
        exact ⟨by omega, c, hg, by simpa using hlt⟩
    | none =>
      rw [hg] at h
      dsimp only at h
      exact ih w' h

theorem matchSectionAt_some (content : List Char) (i : Nat)
    (x : Nat × List Char × Nat) (h : matchSectionAt content i = some x) :
    i < content.length ∧ i < x.2.2 ∧ x.2.2 ≤ content.length := by
  simp only [matchSectionAt] at h
  split at h
  · exact absurd h (by simp)
  · next hcond =>
    split at h
    · exact absurd h (by simp)
    · next hw =>
      have hrle : countLeading (· = '#') (content.drop i) ≤ (content.drop i).length :=
        (List.takeWhile_prefix _).length_le
      have hrpos : 1 ≤ countLeading (· = '#') (content.drop i) := by
        rcases Nat.eq_zero_or_pos (countLeading (· = '#') (content.drop i)) with h0 | h1
        · exact absurd (by simp [h0]) hcond
        · exact h1
      have hil : i < content.length := by
        have : (content.drop i).length = content.length - i := by simp
        omega
      cases hfb : findBacktrackWs content (i + countLeading (· = '#') (content.drop i))
          (countLeading isJsWs (content.drop
            (i + countLeading (· = '#') (content.drop i)))) with
      | none => rw [hfb] at h; simp at h
      | some w' =>
        rw [hfb] at h
        dsimp only at h
        cases h
        obtain ⟨hw1, ch, hch, _⟩ := findBacktrackWs_some content _ _ w' hfb
        obtain ⟨hchlt, _⟩ := List.get?_eq_some.mp hch
        have htle : ((content.drop (i + countLeading (· = '#') (content.drop i) + w')).takeWhile
            fun c => !isLineTerm c).length
            ≤ (content.drop (i + countLeading (· = '#') (content.drop i) + w')).length :=
          (List.takeWhile_prefix _).length_le
        have hdl : (content.drop (i + countLeading (· = '#') (content.drop i) + w')).length
            = content.length - (i + countLeading (· = '#') (content.drop i) + w') := by
          simp
        refine ⟨hil, ?_, ?_⟩ <;> simp only [] <;> omega

theorem sectionScanAux_props (content : List Char) :
    ∀ (fuel i : Nat),
      (∀ s ∈ sectionScanAux content fuel i, i ≤ s.start ∧ s.start < content.length) ∧
      List.Chain' (fun a b => a.start < b.start) (sectionScanAux content fuel i) := by
  intro fuel
  induction fuel with
  | zero => intro i; simp [sectionScanAux]
  | succ fuel ih =>
    intro i
    simp only [sectionScanAux]
    by_cases hil : i < content.length
    · rw [if_pos hil]
      by_cases hls : isLineStart content i = true
      · rw [if_pos hls]
        cases hm : matchSectionAt content i with
        | none =>
          dsimp only
          obtain ⟨ihm, ihc⟩ := ih (i + 1)
          exact ⟨fun s hs => ⟨by have := (ihm s hs).1; omega, (ihm s hs).2⟩, ihc⟩
        | some x =>
          dsimp only
          obtain ⟨hxi, hxe, hxl⟩ := matchSectionAt_some content i x hm
          obtain ⟨ihm, ihc⟩ := ih x.2.2
          refine ⟨?_, ?_⟩
          · intro s hs
            rcases List.mem_cons.mp hs with h1 | h2
            · subst h1; exact ⟨le_refl _, hxi⟩
            · have := ihm s h2
              exact ⟨by omega, this.2⟩
          · rw [List.chain'_cons']
            refine ⟨?_, ihc⟩
            intro y hy
            have := (ihm y (List.mem_of_mem_head? hy)).1
            simp only []
            omega
      · rw [if_neg hls]
        obtain ⟨ihm, ihc⟩ := ih (i + 1)
        exact ⟨fun s hs => ⟨by have := (ihm s hs).1; omega, (ihm s hs).2⟩, ihc⟩
    · rw [if_neg hil]
      simp

theorem sectionScan_props (content : List Char) :
    (∀ s ∈ sectionScan content, s.start < content.length) ∧
    List.Chain' (fun a b => a.start < b.start) (sectionScan content) := by
  obtain ⟨hm, hc⟩ := sectionScanAux_props content (content.length + 1) 0
  exact ⟨fun s hs => (hm s hs).2, hc⟩

/-! ### Section chunk lemmas -/

theorem sectionChunksAux_length (content : List Char) :
    ∀ (ms : List SectionMatch) (idx : Nat),
      (sectionChunksAux content ms idx).length = ms.length := by
  intro ms
  induction ms with
  | nil => intro idx; simp [sectionChunksAux]
  | cons m rest ih => intro idx; simp [sectionChunksAux, ih (idx + 1)]

theorem sectionChunksAux_map_start (content : List Char) :
    ∀ (ms : List SectionMatch) (idx : Nat),
      (sectionChunksAux content ms idx).map Chunk.startOffset
        = ms.map (fun s => (s.start : Int)) := by
  intro ms
  induction ms with
  | nil => intro idx; simp [sectionChunksAux]
  | cons m rest ih =>
    intro idx
    simp only [sectionChunksAux, List.map_cons]
    rw [ih (idx + 1)]

theorem sectionChunksAux_map_index (content : List Char) :
    ∀ (ms : List SectionMatch) (idx : Nat),
      (sectionChunksAux content ms idx).map Chunk.index
        = List.range' idx ms.length := by
  intro ms
  induction ms with
  | nil => intro idx; simp [sectionChunksAux]
  | cons m rest ih =>
    intro idx
    simp only [sectionChunksAux, List.map_cons, List.length_cons, List.range'_succ]
    rw [ih (idx + 1)]

theorem sectionChunksAux_bounds (content : List Char) :
    ∀ (ms : List SectionMatch) (idx : Nat),
      (∀ s ∈ ms, s.start < content.length) →
      List.Chain' (fun a b => a.start < b.start) ms →
      ∀ c ∈ sectionChunksAux content ms idx,
        0 ≤ c.startOffset ∧ c.startOffset ≤ c.endOffset ∧
          c.endOffset ≤ (content.length : Int) := by
  intro ms
  induction ms with
  | nil => intro idx _ _ c hc; simp [sectionChunksAux] at hc
  | cons m rest ih =>
    intro idx hmem hchain c hc
    simp only [sectionChunksAux] at hc
    rcases List.mem_cons.mp hc with h1 | h2
    · subst h1
      cases rest with
      | nil =>
        have := hmem m (by simp)
        refine ⟨by positivity, ?_, ?_⟩ <;> simp only [] <;> omega
      | cons next rest' =>
        have h1 := hmem next (by simp)
        have h2 := List.chain'_cons.mp hchain |>.1
        refine ⟨by positivity, ?_, ?_⟩ <;> simp only [] <;> omega
    · exact ih (idx + 1) (fun s hs => hmem s (by simp [hs]))
        (List.Chain'.tail hchain) c h2

theorem decomposeBySections_props (content : List Char) :
    (∀ c ∈ decomposeBySections content,
      0 ≤ c.startOffset ∧ c.startOffset ≤ c.endOffset ∧
        c.endOffset ≤ (content.length : Int)) ∧
    List.Chain' (fun a b => a.startOffset ≤ b.startOffset)
      (decomposeBySections content) ∧
    (decomposeBySections content).map Chunk.index
      = List.range' 0 (decomposeBySections content).length := by
  obtain ⟨hmem, hchain⟩ := sectionScan_props content
  rcases hms : sectionScan content with _ | ⟨m0, rest⟩
  · unfold decomposeBySections
    rw [hms]
    dsimp only
    refine ⟨?_, ?_, ?_⟩
    · intro c hc
      simp only [List.mem_singleton] at hc
      subst hc
      exact ⟨le_refl _, by simp only []; positivity, le_refl _⟩
    · simp
    · simp [List.range'_succ]
  · rw [hms] at hmem hchain
    unfold decomposeBySections
    rw [hms]
    dsimp only
    have hm0 : m0.start < content.length := hmem m0 (by simp)
    set preChunk : Chunk :=
      ⟨0, jsTrim (jsSlice content 0 ((m0.start : Nat) : Int)), 0,
        ((m0.start : Nat) : Int), some .preamble⟩ with hpreChunk
    have hcases : (if 0 < m0.start then
        (if jsTrim (jsSlice content 0 ((m0.start : Nat) : Int)) ≠ [] then
          [preChunk] else []) else []) = [] ∨
        (if 0 < m0.start then
        (if jsTrim (jsSlice content 0 ((m0.start : Nat) : Int)) ≠ [] then
          [preChunk] else []) else []) = [preChunk] := by
      by_cases h1 : 0 < m0.start
      · by_cases h2 : jsTrim (jsSlice content 0 ((m0.start : Nat) : Int)) ≠ []
        · rw [if_pos h1, if_pos h2]; right; rfl
        · rw [if_pos h1, if_neg h2]; left; rfl
      · rw [if_neg h1]; left; rfl
    have hsecchain : List.Chain' (fun a b => a.startOffset ≤ b.startOffset)
        (sectionChunksAux content (m0 :: rest) (if 0 < m0.start then
          (if jsTrim (jsSlice content 0 ((m0.start : Nat) : Int)) ≠ [] then
            [preChunk] else []) else []).length) := by
      apply (List.chain'_map Chunk.startOffset).mp
      rw [sectionChunksAux_map_start]
      apply (List.chain'_map (fun s : SectionMatch => (s.start : Int))).mpr
      exact hchain.imp fun a b h => by exact_mod_cast le_of_lt h
    have hsechead : ∀ idx y,
        y ∈ (sectionChunksAux content (m0 :: rest) idx).head? →
        y.startOffset = ((m0.start : Nat) : Int) := by
      intro idx y hy
      simp only [sectionChunksAux, List.head?_cons, Option.mem_def,
        Option.some.injEq] at hy
      subst hy
      rfl
    rcases hcases with hl | hr
    · rw [hl] at hsecchain ⊢
      simp only [List.length_nil] at hsecchain
      simp only [List.nil_append, List.length_nil]
      refine ⟨?_, hsecchain, ?_⟩
      · exact fun c hc => sectionChunksAux_bounds content (m0 :: rest) 0 hmem hchain c hc
      · rw [sectionChunksAux_map_index, sectionChunksAux_length]
    · rw [hr] at hsecchain ⊢
      refine ⟨?_, ?_, ?_⟩
      · intro c hc
        rcases List.mem_append.mp hc with h1 | h2
        · simp only [List.mem_singleton] at h1
          subst h1
          refine ⟨le_refl _, ?_, ?_⟩
          · show (0 : Int) ≤ ((m0.start : Nat) : Int)
            positivity
          · show ((m0.start : Nat) : Int) ≤ ((content.length : Nat) : Int)
            exact_mod_cast le_of_lt hm0
        · exact sectionChunksAux_bounds content (m0 :: rest) _ hmem hchain c h2
      · apply List.Chain'.append (List.chain'_singleton preChunk) hsecchain
        intro x hx y hy
        simp only [List.getLast?_singleton, Option.mem_def, Option.some.injEq] at hx
        subst hx
        rw [hsechead _ y hy]
        show (0 : Int) ≤ ((m0.start : Nat) : Int)
        positivity
      · simp only [List.map_append, List.length_append]
        rw [sectionChunksAux_map_index, sectionChunksAux_length]
        have h1 : List.map Chunk.index [preChunk] = [0] := rfl
        have h2 : [preChunk].length = 1 := rfl
        rw [h1, h2]
        rw [show (1 : Nat) + (m0 :: rest).length = (m0 :: rest).length + 1 by omega]
        rw [← List.range'_append_1 0 1 (m0 :: rest).length]
        rfl

/-! ### Sentence scanner lemmas -/

theorem countLeading_le (p : Char → Bool) (l : List Char) :
    countLeading p l ≤ l.length :=
  (List.takeWhile_prefix p).length_le

theorem countLeading_stop (p : Char → Bool) (l : List Char)
    (h : countLeading p l < l.length) :
    ∃ c rest, l.drop (countLeading p l) = c :: rest ∧ p c = false := by
  induction l with
  | nil => simp at h
  | cons x t ih =>
    by_cases hx : p x = true
    · have hcl : countLeading p (x :: t) = countLeading p t + 1 := by
        simp [countLeading, List.takeWhile_cons_of_pos hx]
      rw [hcl, List.drop_succ_cons]
      rw [hcl] at h
      simp only [List.length_cons] at h
      exact ih (by omega)
    · have hx' : p x = false := by simpa using hx
      have hcl : countLeading p (x :: t) = 0 := by
        simp [countLeading, List.takeWhile_cons_of_neg hx]
      rw [hcl]
      exact ⟨x, t, rfl, hx'⟩

theorem countLeading_head_pos (p : Char → Bool) (c : Char) (rest l : List Char)
    (hl : l = c :: rest) (hc : p c = true) : 1 ≤ countLeading p l := by
  subst hl
  simp [countLeading, List.takeWhile_cons_of_pos hc]

theorem sentenceScanAux_props (content : List Char) :
    ∀ (fuel q : Nat),
      (∀ m ∈ sentenceScanAux content fuel q,
        q ≤ m.1 ∧ m.1 < m.2 ∧ m.2 ≤ content.length) ∧
      List.Chain' (fun x y => x.2 ≤ y.1) (sentenceScanAux content fuel q) := by
  intro fuel
  induction fuel with
  | zero => intro q; simp [sentenceScanAux]
  | succ fuel ih =>
    intro q
    simp only [sentenceScanAux]
    by_cases hq : q < content.length
    · rw [if_pos hq]
      set t := countLeading isSentTerm (content.drop q) with ht
      by_cases hs : q + t < content.length
      · rw [if_pos hs]
        set a := countLeading (fun c => !isSentTerm c) (content.drop (q + t)) with ha
        by_cases hsa : q + t + a < content.length
        · rw [if_pos hsa]
          set b := countLeading isSentTerm (content.drop (q + t + a)) with hb
          set w := countLeading isJsWs (content.drop (q + t + a + b)) with hw
          have ha1 : 1 ≤ a := by
            have htlt : countLeading isSentTerm (content.drop q)
                < (content.drop q).length := by
              rw [← ht]
              simp only [List.length_drop]
              omega
            obtain ⟨c, cr, hdrop, hcp⟩ :=
              countLeading_stop isSentTerm (content.drop q) htlt
            rw [List.drop_drop, ← ht] at hdrop
            rw [ha]
            exact countLeading_head_pos _ c cr _ hdrop (by simp [hcp])
          have hble : b ≤ (content.drop (q + t + a)).length := by
            rw [hb]; exact countLeading_le _ _
          have hwle : w ≤ (content.drop (q + t + a + b)).length := by
            rw [hw]; exact countLeading_le _ _
          simp only [List.length_drop] at hble hwle
          obtain ⟨ihm, ihc⟩ := ih (q + t + a + b + w)
          refine ⟨?_, ?_⟩
          · intro m hm
            rcases List.mem_cons.mp hm with h1 | h2
            · subst h1
              refine ⟨by omega, by simp only []; omega, by simp only []; omega⟩
            · have := ihm m h2
              exact ⟨by omega, this.2.1, this.2.2⟩
          · rw [List.chain'_cons']
            refine ⟨?_, ihc⟩
            intro y hy
            have := (ihm y (List.mem_of_mem_head? hy)).1
            simp only []
            omega
        · rw [if_neg hsa]; simp
      · rw [if_neg hs]; simp
    · rw [if_neg hq]; simp

theorem sentenceScan_props (content : List Char) :
    (∀ m ∈ sentenceScan content, m.1 ≤ m.2 ∧ m.2 ≤ content.length) ∧
    List.Chain' (fun x y => x.2 ≤ y.1) (sentenceScan content) := by
  obtain ⟨hm, hc⟩ := sentenceScanAux_props content (content.length + 1) 0
  exact ⟨fun m hmem => ⟨le_of_lt (hm m hmem).2.1, (hm m hmem).2.2⟩, hc⟩

theorem sentenceChunksAux_props (content : List Char) :
    ∀ (ms : List (Nat × Nat)) (idx : Nat),
      (∀ m ∈ ms, m.1 ≤ m.2 ∧ m.2 ≤ content.length) →
      List.Chain' (fun x y => x.2 ≤ y.1) ms →
      (∀ c ∈ sentenceChunksAux content ms idx,
        0 ≤ c.startOffset ∧ c.startOffset ≤ c.endOffset ∧
          c.endOffset ≤ (content.length : Int)) ∧
      List.Chain' (fun a b => a.startOffset ≤ b.startOffset)
        (sentenceChunksAux content ms idx) ∧
      (sentenceChunksAux content ms idx).map Chunk.index
        = List.range' idx (sentenceChunksAux content ms idx).length := by
  intro ms
  induction ms with
  | nil => intro idx _ _; simp [sentenceChunksAux]
  | cons m rest ih =>
    obtain ⟨s, e⟩ := m
    intro idx hmem hchain
    simp only [sentenceChunksAux]
    obtain ⟨ihm, ihc, ihi⟩ := ih (idx + 1) (fun x hx => hmem x (by simp [hx]))
      hchain.tail
    refine ⟨?_, ?_, ?_⟩
    · intro c hc
      rcases List.mem_cons.mp hc with h1 | h2
      · subst h1
        have hse := hmem (s, e) (by simp)
        refine ⟨by positivity, ?_, ?_⟩
        · show ((s : Nat) : Int) ≤ ((e : Nat) : Int)
          exact_mod_cast hse.1
        · show ((e : Nat) : Int) ≤ ((content.length : Nat) : Int)
          exact_mod_cast hse.2
      · exact ihm c h2
    · rw [List.chain'_cons']
      refine ⟨?_, ihc⟩
      intro y hy
      cases rest with
      | nil => simp [sentenceChunksAux] at hy
      | cons m2 rest2 =>
        obtain ⟨s2, e2⟩ := m2
        simp only [sentenceChunksAux, List.head?_cons, Option.mem_def,
          Option.some.injEq] at hy
        subst hy
        have h1 := hmem (s, e) (by simp)
        have h2 : e ≤ s2 := (List.chain'_cons.mp hchain).1
        simp only []
        omega
    · simp only [List.map_cons, List.length_cons, List.range'_succ]
      rw [ihi]

theorem decomposeBySentences_props (content : List Char) :
    (∀ c ∈ decomposeBySentences content,
      0 ≤ c.startOffset ∧ c.startOffset ≤ c.endOffset ∧
        c.endOffset ≤ (content.length : Int)) ∧
    List.Chain' (fun a b => a.startOffset ≤ b.startOffset)
      (decomposeBySentences content) ∧
    (decomposeBySentences content).map Chunk.index
      = List.range' 0 (decomposeBySentences content).length := by
  obtain ⟨hmem, hchain⟩ := sentenceScan_props content
  unfold decomposeBySentences
  rcases hms : sentenceScan content with _ | ⟨m, rest⟩
  · dsimp only
    by_cases htr : jsTrim content ≠ []
    · rw [if_pos htr]
      refine ⟨?_, ?_, ?_⟩
      · intro c hc
        simp only [List.mem_singleton] at hc
        subst hc
        exact ⟨le_refl _, by simp only []; positivity, le_refl _⟩
      · simp
      · simp [List.range'_succ]
    · rw [if_neg htr]
      simp
  · rw [hms] at hmem hchain
    exact sentenceChunksAux_props content (m :: rest) 0 hmem hchain

/-! ### findAll lemmas and C10 -/

theorem jsIndexOf_pos_bound (sc term : List Char) (hterm : term ≠ [])
    (pos f : Nat) (h : jsIndexOf sc term pos = some f) :
    pos ≤ f ∧ f + term.length ≤ sc.length := by
  obtain ⟨hmin, hocc⟩ := jsIndexOf_some sc term pos f h
  simp only [occursAt, List.isPrefixOf_iff_prefix] at hocc
  have hlen : term.length ≤ sc.length - f := by
    have := hocc.length_le
    simpa using this
  have htpos : 1 ≤ term.length := List.length_pos.mpr hterm
  omega

theorem findAllAux_chain (sc term : List Char) (hterm : term ≠ []) :
    ∀ (fuel pos : Nat),
      (∀ x ∈ findAllAux sc term fuel pos, pos ≤ x) ∧
      List.Chain' (fun a b => a < b ∧ a + term.length ≤ b)
        (findAllAux sc term fuel pos) := by
  intro fuel
  induction fuel with
  | zero => intro pos; simp [findAllAux]
  | succ fuel ih =>
    intro pos
    simp only [findAllAux]
    cases hidx : jsIndexOf sc term pos with
    | none => simp
    | some f =>
      obtain ⟨hpf, hbound⟩ := jsIndexOf_pos_bound sc term hterm pos f hidx
      obtain ⟨ihmem, ihchain⟩ := ih (f + term.length)
      have htpos : 1 ≤ term.length := List.length_pos.mpr hterm
      refine ⟨?_, ?_⟩
      · intro x hx
        rcases List.mem_cons.mp hx with h1 | h2
        · omega
        · have := ihmem x h2
          omega
      · rw [List.chain'_cons']
        refine ⟨?_, ihchain⟩
        intro y hy
        have hmem : y ∈ findAllAux sc term fuel (f + term.length) :=
          List.mem_of_mem_head? hy
        have := ihmem y hmem
        exact ⟨by omega, this⟩

/-- C10: for a nonempty substring, the offsets returned by `findAll` are
strictly increasing and consecutive offsets differ by at least the
substring's length, so overlapping occurrences are not reported. -/
theorem findAll_offsets_spacing (content substring : List Char)
    (caseSensitive : Bool) (h : substring ≠ []) :
    List.Chain' (fun a b => a < b ∧ a + substring.length ≤ b)
      (findAll content substring caseSensitive) := by
  cases caseSensitive with
  | true =>
    have := (findAllAux_chain content substring h (content.length + 1) 0).2
    simpa [findAll] using this
  | false =>
    have h1 : jsToLower substring ≠ [] := by
      simp only [jsToLower, ne_eq, List.map_eq_nil_iff]
      exact h
    have h2 : (jsToLower substring).length = substring.length := by
      simp [jsToLower]
    have hc := (findAllAux_chain (jsToLower content) (jsToLower substring) h1
      (content.length + 1) 0).2
    rw [h2] at hc
    simpa [findAll] using hc

/-- Witness for C10: searching `"aa"` in `"aaa"` case-insensitively
returns only offset `0` and satisfies the spacing property. -/
theorem findAll_offsets_spacing_witness :
    "aa".toList ≠ [] ∧
    List.Chain' (fun a b => a < b ∧ a + "aa".toList.length ≤ b)
      (findAll "aaa".toList "aa".toList false) ∧
    findAll "aaa".toList "aa".toList false = [0] :=
  ⟨by decide, findAll_offsets_spacing "aaa".toList "aa".toList false (by decide),
    by decide⟩

/-! ### C6: invalid search patterns -/

/-- Whether a tool response is the explicit error form. -/
def toolIsErr {α : Type} : ToolResponse α → Bool
  | .ok _ => false
  | .err _ => true

/-- C6 counterexample: for an invalid pattern (a pattern that fails to
compile, `compiled = none`) the `rlm_search_context` tool boundary does
**not** report an explicit error message: `search` swallows the compile
failure and returns `[]`, so the handler's catch branch is dead and the
response is a successful zero-match output. -/
theorem searchContext_invalid_pattern_counterexample :
    rlmSearchContext "abc".toList none {} = ToolResponse.ok ⟨0, []⟩ ∧
    toolIsErr (rlmSearchContext "abc".toList none {}) = false :=
  ⟨rfl, rfl⟩

/-- C6 (amended): for every text and every syntactically invalid regex
pattern, the lower-level `search` routine returns an empty match sequence
and signals no error, and the `rlm_search_context` tool boundary likewise
reports no error: it returns a successful response with zero matches
(its invalid-pattern error branch is unreachable because `search` is
total). -/
theorem search_invalid_pattern_empty (content : List Char) (opts : SearchOpts) :
    search content none opts = [] ∧
    rlmSearchContext content none opts = ToolResponse.ok ⟨0, []⟩ ∧
    toolIsErr (rlmSearchContext content none opts) = false :=
  ⟨rfl, rfl, rfl⟩

/-! ### C8: rlm_get_chunks -/

/-- C8: the `rlm_get_chunks` response contains exactly the requested
indices that fall in `[0, total)` for the re-derived decomposition, in
request order; invalid indices are silently omitted (no error form
exists), and if some requested index is out of range then
`returned < requested`. -/
theorem rlm_get_chunks_spec (content : List Char) (strategy : DecompositionStrategy)
    (cs ov : Int) (idxs : List Int) :
    (rlmGetChunks content strategy cs ov idxs).requested = idxs.length ∧
    (rlmGetChunks content strategy cs ov idxs).chunks.map ChunkItem.index
      = idxs.filter (fun i => decide (0 ≤ i) &&
          decide (i < ((decompose content strategy
            { chunkSize := some cs, overlap := some ov }).length : Int))) ∧
    (rlmGetChunks content strategy cs ov idxs).returned
      = (idxs.filter (fun i => decide (0 ≤ i) &&
          decide (i < ((decompose content strategy
            { chunkSize := some cs, overlap := some ov }).length : Int)))).length ∧
    ((∃ i ∈ idxs, i < 0 ∨ ((decompose content strategy
        { chunkSize := some cs, overlap := some ov }).length : Int) ≤ i) →
      (rlmGetChunks content strategy cs ov idxs).returned
        < (rlmGetChunks content strategy cs ov idxs).requested) := by
  refine ⟨rfl, ?_, ?_, ?_⟩
  · show List.map ChunkItem.index (List.map _ _) = _
    rw [List.map_map]
    exact List.map_id'' (fun x => rfl) _
  · simp [rlmGetChunks]
  · rintro ⟨i, hi, hvi⟩
    show (rlmGetChunks content strategy cs ov idxs).returned < idxs.length
    have hret : (rlmGetChunks content strategy cs ov idxs).returned
        = (idxs.filter (fun i => decide (0 ≤ i) &&
            decide (i < ((decompose content strategy
              { chunkSize := some cs, overlap := some ov }).length : Int)))).length := by
      simp [rlmGetChunks]
    rw [hret]
    apply List.length_filter_lt_length_iff_exists.mpr
    refine ⟨i, hi, ?_⟩
    simp only [Bool.and_eq_true, decide_eq_true_eq, not_and]
    intro h0
    omega

/-- Witness for C8: context `"ab"`, fixed-size defaults (one chunk),
requested indices `[0, 5]`: index 5 is out of range and `returned <
requested`. -/
theorem rlm_get_chunks_spec_witness :
    (∃ i ∈ ([0, 5] : List Int), i < 0 ∨ ((decompose "ab".toList .fixedSize
        { chunkSize := some 10000, overlap := some 200 }).length : Int) ≤ i) ∧
    (rlmGetChunks "ab".toList .fixedSize 10000 200 [0, 5]).returned
      < (rlmGetChunks "ab".toList .fixedSize 10000 200 [0, 5]).requested :=
  ⟨⟨5, by decide, Or.inr (by decide)⟩,
    (rlm_get_chunks_spec "ab".toList .fixedSize 10000 200 [0, 5]).2.2.2
      ⟨5, by decide, Or.inr (by decide)⟩⟩

/-! ### Assembled claim theorems: C7, C2, C4 -/

theorem contiguous_props (out : List Chunk) :
    ∀ idx, out.map Chunk.index = List.range' idx out.length →
      idxLB idx out = true ∧ List.Chain' (fun a b => a.index < b.index) out := by
  induction out with
  | nil => intro idx _; exact ⟨rfl, List.chain'_nil⟩
  | cons c t ih =>
    intro idx h
    simp only [List.map_cons, List.length_cons, List.range'_succ] at h
    have h1 : c.index = idx := (List.cons.inj h).1
    have h2 := (List.cons.inj h).2
    obtain ⟨ihlb, ihchain⟩ := ih (idx + 1) h2
    refine ⟨?_, ?_⟩
    · simp only [idxLB, Bool.and_eq_true, decide_eq_true_eq]
      exact ⟨by omega, ihlb⟩
    · rw [List.chain'_cons']
      refine ⟨?_, ihchain⟩
      intro y hy
      cases t with
      | nil => simp at hy
      | cons d t2 =>
        simp only [List.head?_cons, Option.mem_def, Option.some.injEq] at hy
        subst hy
        simp only [List.map_cons, List.length_cons, List.range'_succ] at h2
        have := (List.cons.inj h2).1
        omega

theorem orDefault_pos (o : Option Int) (d : Int) (hd : 1 ≤ d)
    (h : ∀ v, o = some v → 0 ≤ v) : 1 ≤ orDefault o d := by
  cases o with
  | none => simpa [orDefault] using hd
  | some v =>
    simp only [orDefault]
    by_cases hv : v = 0
    · rw [if_pos hv]; exact hd
    · rw [if_neg hv]
      have := h v rfl
      omega

/-- C7: for every text in which the section scanner finds no Markdown
header line (no 1–6 leading `#` markers followed by whitespace and a
title), including the empty text, by-sections decomposition returns
exactly one chunk whose content is the whole input, with `startOffset 0`
and `endOffset` equal to the text's length. -/
theorem bySections_no_header_single_chunk (content : List Char)
    (opts : DecomposeOptions) (h : sectionScan content = []) :
    decompose content .bySections opts
      = [⟨0, content, 0, (content.length : Int), none⟩] := by
  show decomposeBySections content = _
  unfold decomposeBySections
  rw [h]

/-- Witness for C7 at the empty text and at `"hello world"`. -/
theorem bySections_no_header_single_chunk_witness :
    sectionScan [] = [] ∧ decompose [] .bySections {} = [⟨0, [], 0, 0, none⟩] ∧
    sectionScan "hello world".toList = [] ∧
    decompose "hello world".toList .bySections {}
      = [⟨0, "hello world".toList, 0, 11, none⟩] :=
  ⟨by decide, bySections_no_header_single_chunk [] {} (by decide),
   by decide, bySections_no_header_single_chunk "hello world".toList {} (by decide)⟩

/-- C2 counterexample: `rlm_get_chunks` accepts any integer `chunk_size`,
and `decompose` with a negative `chunkSize` (here `-5`) produces a chunk
with `endOffset = -5 < 0 ≤ startOffset`, violating the offset invariant. -/
theorem decompose_offsets_counterexample :
    ¬ (∀ c ∈ decompose "a".toList .fixedSize { chunkSize := some (-5) },
        0 ≤ c.startOffset ∧ c.startOffset ≤ c.endOffset ∧
          c.endOffset ≤ ("a".toList.length : Int)) := by
  decide

/-- C2 (amended): for every text, every strategy and every options value
whose `chunkSize` field, when present, is nonnegative, each chunk returned
by `decompose` satisfies `0 ≤ startOffset ≤ endOffset ≤ length` of the
source text. -/
theorem decompose_offsets_in_bounds (content : List Char)
    (strategy : DecompositionStrategy) (opts : DecomposeOptions)
    (hcs : ∀ v, opts.chunkSize = some v → 0 ≤ v) :
    ∀ c ∈ decompose content strategy opts,
      0 ≤ c.startOffset ∧ c.startOffset ≤ c.endOffset ∧
        c.endOffset ≤ (content.length : Int) := by
  cases strategy with
  | fixedSize =>
    intro c hc
    exact decomposeBySizeAux_bounds content _ _
      (orDefault_pos _ _ (by norm_num [DEFAULT_CHUNK_SIZE]) hcs)
      (content.length + 1) 0 0 (le_refl 0) c hc
  | byLines =>
    intro c hc
    exact decomposeByLinesAux_bounds _ _ (splitOnChar '\n' content)
      content.length (length_splitOnChar '\n' content)
      ((splitOnChar '\n' content).length + 1) 0 0 0 (by simp [sumLinesPlus1]) c hc
  | byParagraphs =>
    intro c hc
    exact (splitChunksAux_bounds content _ 0 0 0 (by simp)
      (jsSplit_spanned _ _) c hc).1
  | bySections => exact (decomposeBySections_props content).1
  | byRegex =>
    intro c hc
    exact (splitChunksAux_bounds content _ 0 0 0 (by simp)
      (jsSplit_spanned _ _) c hc).1
  | bySentences => exact (decomposeBySentences_props content).1

/-- Witness for C2 (amended) at `"ab\n\ncd"` with the paragraph strategy
and empty options. -/
theorem decompose_offsets_in_bounds_witness :
    (∀ v, ({} : DecomposeOptions).chunkSize = some v → (0 : Int) ≤ v) ∧
    (∀ c ∈ decompose "ab\n\ncd".toList .byParagraphs {},
      0 ≤ c.startOffset ∧ c.startOffset ≤ c.endOffset ∧
        c.endOffset ≤ ("ab\n\ncd".toList.length : Int)) :=
  ⟨fun _ h => Option.noConfusion h,
    decompose_offsets_in_bounds "ab\n\ncd".toList .byParagraphs {}
      (fun _ h => Option.noConfusion h)⟩

/-- C4 counterexample: by-paragraphs decomposition of `"\n\na"` returns a
single chunk whose `index` is `1`, not `0` — the forEach index of the
split array is kept even when empty parts are skipped, so the index
sequence is not contiguous starting at 0. -/
theorem paragraphs_index_counterexample :
    (decompose "\n\na".toList .byParagraphs {}).map Chunk.index = [1] ∧
    (decompose "\n\na".toList .byParagraphs {}).map Chunk.index
      ≠ List.range (decompose "\n\na".toList .byParagraphs {}).length := by
  constructor <;> decide

/-- C4 (amended): for every text, strategy and options, one `decompose`
call returns chunks in non-decreasing `startOffset` order with strictly
increasing `index` values, and the k-th chunk has index at least `k`;
index values are contiguous starting at 0 for the fixed-size, by-lines,
by-sections and by-sentences strategies (for by-paragraphs and by-regex
the index is the part's position in the underlying split, so skipped
empty parts leave gaps). -/
theorem decompose_order_and_indices (content : List Char)
    (strategy : DecompositionStrategy) (opts : DecomposeOptions) :
    List.Chain' (fun a b => a.startOffset ≤ b.startOffset)
      (decompose content strategy opts) ∧
    List.Chain' (fun a b => a.index < b.index) (decompose content strategy opts) ∧
    idxLB 0 (decompose content strategy opts) = true ∧
    ((strategy = .fixedSize ∨ strategy = .byLines ∨ strategy = .bySections ∨
        strategy = .bySentences) →
      (decompose content strategy opts).map Chunk.index
        = List.range (decompose content strategy opts).length) := by
  cases strategy with
  | fixedSize =>
    obtain ⟨hmem, hchain, hidx⟩ := decomposeBySizeAux_order content
      (orDefault opts.chunkSize DEFAULT_CHUNK_SIZE)
      (orDefault opts.overlap DEFAULT_OVERLAP) (content.length + 1) 0 0
    obtain ⟨hlb, hidxchain⟩ := contiguous_props _ 0 hidx
    exact ⟨hchain, hidxchain, hlb, fun _ => by
      rw [List.range_eq_range']; exact hidx⟩
  | byLines =>
    obtain ⟨hmem, hchain, hidx⟩ := decomposeByLinesAux_order
      (orDefault opts.linesPerChunk DEFAULT_LINES_PER_CHUNK)
      (orDefault opts.overlap 10) (splitOnChar '\n' content)
      ((splitOnChar '\n' content).length + 1) 0 0 0
    obtain ⟨hlb, hidxchain⟩ := contiguous_props _ 0 hidx
    exact ⟨hchain, hidxchain, hlb, fun _ => by
      rw [List.range_eq_range']; exact hidx⟩
  | byParagraphs =>
    obtain ⟨hchain, hidxchain, hmem, hlb⟩ := splitChunksAux_order content _ 0 0 0
      (by simp) (jsSplit_spanned _ _)
    exact ⟨hchain, hidxchain, hlb, fun h => by simp at h⟩
  | bySections =>
    obtain ⟨hb, hchain, hidx⟩ := decomposeBySections_props content
    obtain ⟨hlb, hidxchain⟩ := contiguous_props _ 0 hidx
    exact ⟨hchain, hidxchain, hlb, fun _ => by
      rw [List.range_eq_range']; exact hidx⟩
  | byRegex =>
    obtain ⟨hchain, hidxchain, hmem, hlb⟩ := splitChunksAux_order content _ 0 0 0
      (by simp) (jsSplit_spanned _ _)
    exact ⟨hchain, hidxchain, hlb, fun h => by simp at h⟩
  | bySentences =>
    obtain ⟨hb, hchain, hidx⟩ := decomposeBySentences_props content
    obtain ⟨hlb, hidxchain⟩ := contiguous_props _ 0 hidx
    exact ⟨hchain, hidxchain, hlb, fun _ => by
      rw [List.range_eq_range']; exact hidx⟩

/-- Witness for C4 (amended) at `"x\ny"` with the by-lines strategy. -/
theorem decompose_order_and_indices_witness :
    List.Chain' (fun a b => a.startOffset ≤ b.startOffset)
      (decompose "x\ny".toList .byLines {}) ∧
    List.Chain' (fun a b => a.index < b.index)
      (decompose "x\ny".toList .byLines {}) ∧
    idxLB 0 (decompose "x\ny".toList .byLines {}) = true ∧
    (decompose "x\ny".toList .byLines {}).map Chunk.index
      = List.range (decompose "x\ny".toList .byLines {}).length :=
  ⟨(decompose_order_and_indices "x\ny".toList .byLines {}).1,
   (decompose_order_and_indices "x\ny".toList .byLines {}).2.1,
   (decompose_order_and_indices "x\ny".toList .byLines {}).2.2.1,
   (decompose_order_and_indices "x\ny".toList .byLines {}).2.2.2
     (Or.inr (Or.inl rfl))⟩

end RLM
